import Mathlib

/-!
# Standard-API adapter over the regexp2 engine (`std_regexp_api.go`)

A shallow embedding of the adapter layer `RegexpStd` and of `QuoteMeta`.

* A Go `string` and the contents of a Go `[]byte` are lists of bytes, a byte
  being a natural number below 256.
* A Go `int` is an `Int`.
* A Go slice that may be `nil` is an `Option (List α)`, `none` being `nil`.
* A Go function that may panic, or whose loop is driven by the engine, returns
  in `Except Fault`.
* The engine (`Regexp`, `Match`, `Group`, `Capture`) is not part of the adapter
  file; the adapter reaches it through a handful of entry points, which are the
  fields of the structure `Regexp` below.
-/

namespace Regexp2

/-! ## Bytes and strings -/

/-- A Go string, as the sequence of its bytes. -/
abbrev Str := List Nat

/-- The bytes of an ASCII literal. -/
def bytes (s : String) : Str := s.toList.map Char.toNat

/-- Why a run of adapter code did not return a value. -/
inductive Fault where
  /-- A Go run-time panic (index or slice bounds out of range, or an explicit `panic`). -/
  | panic
  /-- The loop was still running when the iteration budget ran out. -/
  | fuel
deriving DecidableEq, Repr

deriving instance DecidableEq for Except

/-! ## `special` and its bitmap -/

/-- The bytes of the literal in `init`: backslash . + * ? ( ) | [ ] { } ^ $ -/
def specialLiteral : Str := [92, 46, 43, 42, 63, 40, 41, 124, 91, 93, 123, 125, 94, 36]

/-- One step of the loop of `init`: `specialBytes[b%16] |= 1 << (b / 16)`, in byte arithmetic. -/
def initStep (tbl : List Nat) (b : Nat) : List Nat :=
  tbl.set (b % 16) ((tbl.getD (b % 16) 0 ||| (1 <<< (b / 16)) % 256) % 256)

/-- The bitmap `specialBytes` as `init` leaves it: sixteen zero bytes, then one
`initStep` per byte of the literal. -/
def specialBytes : List Nat := specialLiteral.foldl initStep (List.replicate 16 0)

/-- Function `special`: `b < utf8.RuneSelf && specialBytes[b%16]&(1<<(b/16)) != 0`. -/
def special (b : Nat) : Bool :=
  decide (b < 128) && (specialBytes.getD (b % 16) 0 &&& (1 <<< (b / 16)) % 256) != 0

/-! ## `QuoteMeta` -/

/-- The first loop of `QuoteMeta`, entered at index `i` with `rest = s[i:]`:
the index at which it stops (the first special byte, or `len(s)`). -/
def scanSpecial : Str → Nat → Nat
  | [], i => i
  | c :: rest, i => if special c then i else scanSpecial rest (i + 1)

/-- The assignment `b[j] = v`: panics when `j` is out of range. -/
def store (b : List Nat) (j : Nat) (v : Nat) : Except Fault (List Nat) :=
  if j < b.length then .ok (b.set j v) else .error .panic

/-- The builtin `copy(dst, src)`: overwrites the first `min(len(dst), len(src))` bytes. -/
def copy (dst src : List Nat) : List Nat :=
  src.take dst.length ++ dst.drop src.length

/-- The second loop of `QuoteMeta` over the remaining bytes `s[i:]`, with the
buffer `b` and the write index `j`; at the end `string(b[:j])`. -/
def quoteLoop : Str → List Nat → Nat → Except Fault Str
  | [], b, j => if j ≤ b.length then .ok (b.take j) else .error .panic
  | c :: rest, b, j =>
    if special c then
      match store b j 92 with
      | .error e => .error e
      | .ok b1 =>
        match store b1 (j + 1) c with
        | .error e => .error e
        | .ok b2 => quoteLoop rest b2 (j + 2)
    else
      match store b j c with
      | .error e => .error e
      | .ok b1 => quoteLoop rest b1 (j + 1)

/-- Function `QuoteMeta`. -/
def QuoteMeta (s : Str) : Except Fault Str :=
  let i := scanSpecial s 0
  if i ≥ s.length then .ok s
  else
    let b := copy (List.replicate (2 * s.length - i) 0) (s.take i)
    quoteLoop (s.drop i) b i

/-- The escaped form the specification describes: each special byte preceded by
a backslash, every other byte as it is. -/
def escapeByte (c : Nat) : Str := if special c then [92, c] else [c]

/-- Removal of the inserted backslashes: a backslash is dropped and the byte
after it is kept. -/
def unquote : Str → Str
  | [] => []
  | [c] => [c]
  | c :: d :: rest => if c = 92 then d :: unquote rest else c :: unquote (d :: rest)

/-! ## The engine's data -/

/-- The engine's `Capture`: the text searched and the span `(Index, Length)` of
the capture in it. -/
structure Capture where
  text : Str
  Index : Int
  Length : Int
deriving DecidableEq, Repr

/-- The engine's `Group`, which embeds a `Capture`; the promoted fields
`Index` and `Length` are those of the embedded capture. -/
structure Group extends Capture
deriving DecidableEq, Repr

/-- The engine's `Match`, which embeds the `Group` of the whole match.
`otherGroups` is the slice as `populateOtherGroups` leaves it: the groups
declared in the pattern, in declaration order (group 0, the whole match, is the
embedded `Group`). -/
structure Match extends Group where
  otherGroups : List Group
deriving DecidableEq, Repr

/-- Modelled from the spec: the method `Capture.String` of the engine, whose
source is not in the adapter file. The spec gives a match a span (start offset,
length) in the text and calls the text of that span the matched text. -/
def Capture.String (c : Capture) : Str :=
  (c.text.drop c.Index.toNat).take c.Length.toNat

/-- An error value returned by the engine. -/
abbrev EngineError := String

/-- The record `code.FcPrefix` of a compiled pattern. -/
structure Prefix where
  PrefixStr : Str
  CaseInsensitive : Bool
deriving DecidableEq, Repr

/-- The engine's `Regexp`, taken as a parameter: the field `pattern`, the record
`code.FcPrefix`, and one field per engine method the adapter calls. A Go result
`(v, err)` is an `Except EngineError`, a `*Match` that may be `nil` an `Option`. -/
structure Regexp where
  pattern : Str
  FcPrefix : Option Prefix
  MatchString : Str → Except EngineError Bool
  FindStringMatch : Str → Except EngineError (Option Match)
  FindNextMatch : Match → Except EngineError (Option Match)
  Replace : Str → Str → Int → Int → Except EngineError Str
  ReplaceFunc : Str → (Match → Str) → Int → Int → Except EngineError Str

/-- Type `RegexpStd`: the adapter around a compiled engine pattern. -/
structure RegexpStd where
  p : Regexp

/-! ## Byte slices and slice expressions -/

/-- A Go `[]byte`: the backing array from the first element of the slice up to
its capacity, and the length of the slice. -/
structure Bytes where
  arr : List Nat
  len : Nat
deriving DecidableEq, Repr

/-- The conversion `[]byte(s)` with no spare capacity. -/
def Bytes.ofStr (s : Str) : Bytes := ⟨s, s.length⟩

/-- The elements of a byte slice, `b[0] .. b[len(b)-1]`. -/
def Bytes.toStr (b : Bytes) : Str := b.arr.take b.len

/-- Function `unsafeBytesString`: the bytes of `b` viewed as a string. -/
def unsafeBytesString (b : Bytes) : Str := b.toStr

/-- The full slice expression `b[lo:hi:max]` on a byte slice: panics unless
`0 <= lo <= hi <= max <= cap(b)`. -/
def Bytes.slice3 (b : Bytes) (lo hi max : Int) : Except Fault Bytes :=
  if 0 ≤ lo ∧ lo ≤ hi ∧ hi ≤ max ∧ max ≤ (b.arr.length : Int) then
    .ok ⟨(b.arr.drop lo.toNat).take (max - lo).toNat, (hi - lo).toNat⟩
  else .error .panic

/-- The slice expression `s[lo:hi]` on a string: panics unless
`0 <= lo <= hi <= len(s)`. -/
def sliceStr (s : Str) (lo hi : Int) : Except Fault Str :=
  if 0 ≤ lo ∧ lo ≤ hi ∧ hi ≤ (s.length : Int) then
    .ok ((s.drop lo.toNat).take (hi - lo).toNat)
  else .error .panic

/-- The slice expression `s[lo:]` on a string: panics unless `0 <= lo <= len(s)`. -/
def sliceFrom (s : Str) (lo : Int) : Except Fault Str :=
  if 0 ≤ lo ∧ lo ≤ (s.length : Int) then .ok (s.drop lo.toNat) else .error .panic

/-- The index expression `a[i]` on a slice of integers: panics when out of range. -/
def index (a : List Int) (i : Nat) : Except Fault Int :=
  match a[i]? with
  | some v => .ok v
  | none => .error .panic

/-- The builtin `len` on a slice that may be `nil`. -/
def sliceLen {α : Type} (a : Option (List α)) : Nat := (a.getD []).length

/-- The builtin `append(a, x)` on a slice that may be `nil`. -/
def sliceAppend {α : Type} (a : Option (List α)) (x : α) : Option (List α) :=
  some (a.getD [] ++ [x])

/-! ## Single-match operations -/

/-- Method `LiteralPrefix`. -/
def RegexpStd.LiteralPrefix (re : RegexpStd) : Str × Bool :=
  match re.p.FcPrefix with
  | some p => (p.PrefixStr, p.CaseInsensitive)
  | none => ([], false)

/-- Method `MatchString`. -/
def RegexpStd.MatchString (re : RegexpStd) (s : Str) : Bool :=
  match re.p.MatchString s with
  | .ok ok => ok
  | .error _ => false

/-- Method `Match`. -/
def RegexpStd.Match (re : RegexpStd) (b : Bytes) : Bool :=
  re.MatchString (unsafeBytesString b)

/-- Method `FindIndex`. -/
def RegexpStd.FindIndex (re : RegexpStd) (b : Bytes) : Option (List Int) :=
  match re.p.FindStringMatch (unsafeBytesString b) with
  | .error _ => none
  | .ok (some m) => some [m.Index, m.Length]
  | .ok none => none

/-- Method `FindString`. -/
def RegexpStd.FindString (re : RegexpStd) (s : Str) : Str :=
  match re.p.FindStringMatch s with
  | .error _ => []
  | .ok (some m) => m.String
  | .ok none => []

/-- Method `FindStringIndex`. -/
def RegexpStd.FindStringIndex (re : RegexpStd) (s : Str) : Option (List Int) :=
  match re.p.FindStringMatch s with
  | .error _ => none
  | .ok (some m) => some [m.Index, m.Length]
  | .ok none => none

/-- Method `FindSubmatchIndex`. -/
def RegexpStd.FindSubmatchIndex (re : RegexpStd) (b : Bytes) : Option (List Int) :=
  match re.p.FindStringMatch (unsafeBytesString b) with
  | .error _ => none
  | .ok (some m) => some ([m.Index] ++ m.otherGroups.map (fun g => g.Index))
  | .ok none => none

/-- Method `FindStringSubmatch`. -/
def RegexpStd.FindStringSubmatch (re : RegexpStd) (s : Str) : Option (List Str) :=
  match re.p.FindStringMatch s with
  | .error _ => none
  | .ok (some m) => some ([m.String] ++ m.otherGroups.map (fun g => g.String))
  | .ok none => none

/-- Method `FindStringSubmatchIndex`. -/
def RegexpStd.FindStringSubmatchIndex (re : RegexpStd) (s : Str) : Option (List Int) :=
  match re.p.FindStringMatch s with
  | .error _ => none
  | .ok (some m) =>
    some ([m.Index, m.Length] ++ m.otherGroups.flatMap (fun g => [g.Index, g.Length]))
  | .ok none => none

/-- The loop of `FindSubmatch`, with `k` iterations left before `i` reaches
`len(indexes)/2`: appends `b[indexes[i]:indexes[i+1]:indexes[i+1]]`. -/
def findSubmatchLoop (b : Bytes) (indexes : List Int) :
    Nat → Nat → List Bytes → Except Fault (List Bytes)
  | 0, _, result => .ok result
  | k + 1, i, result => do
    let lo ← index indexes i
    let hi ← index indexes (i + 1)
    let sub ← b.slice3 lo hi hi
    findSubmatchLoop b indexes k (i + 1) (result ++ [sub])

/-- Method `FindSubmatch`; the result is the slice made by `make`, never `nil`. -/
def RegexpStd.FindSubmatch (re : RegexpStd) (b : Bytes) : Except Fault (Option (List Bytes)) := do
  let indexes := re.FindSubmatchIndex b
  let result ← findSubmatchLoop b (indexes.getD []) (sliceLen indexes / 2) 0 []
  return some result

/-! ## All-matches operations

Every function of the family has the same loop,
`for m != nil { result = append(result, x); m, err = re.p.FindNextMatch(m); ... }`,
and differs in the value `x` it appends for the match `m`. The argument `n` is
a parameter of each function, as in the source. The loop is driven by the
engine, so it runs on an iteration budget. -/

/-- The loop shared by the all-matches family, entered with the current match
`m` and the result so far: on an engine error it returns `nil`. -/
def allLoop {α : Type} (re : RegexpStd) (proj : Match → Except Fault α) :
    Nat → Option Match → Option (List α) → Except Fault (Option (List α))
  | _, none, result => .ok result
  | 0, some _, _ => .error .fuel
  | fuel + 1, some m, result =>
    match proj m with
    | .error e => .error e
    | .ok x =>
      match re.p.FindNextMatch m with
      | .error _ => .ok none
      | .ok next => allLoop re proj fuel next (sliceAppend result x)

/-- The body shared by the all-matches family: first match, then the loop. -/
def allMatches {α : Type} (re : RegexpStd) (proj : Match → Except Fault α) (fuel : Nat)
    (s : Str) : Except Fault (Option (List α)) :=
  match re.p.FindStringMatch s with
  | .error _ => .ok none
  | .ok m => allLoop re proj fuel m none

/-- Method `FindAll`: appends `b[m.Group.Index:m.Group.Length:m.Group.Length]`. -/
def RegexpStd.FindAll (re : RegexpStd) (fuel : Nat) (b : Bytes) (_n : Int) :
    Except Fault (Option (List Bytes)) :=
  allMatches re (fun m => b.slice3 m.Index m.Length m.Length) fuel (unsafeBytesString b)

/-- Method `FindAllString`: appends `m.Group.String()`. -/
def RegexpStd.FindAllString (re : RegexpStd) (fuel : Nat) (s : Str) (_n : Int) :
    Except Fault (Option (List Str)) :=
  allMatches re (fun m => .ok m.String) fuel s

/-- Method `FindAllStringIndex`: appends `[]int{m.Group.Index, m.Group.Length}`. -/
def RegexpStd.FindAllStringIndex (re : RegexpStd) (fuel : Nat) (s : Str) (_n : Int) :
    Except Fault (Option (List (List Int))) :=
  allMatches re (fun m => .ok [m.Index, m.Length]) fuel s

/-- Method `FindAllIndex`. -/
def RegexpStd.FindAllIndex (re : RegexpStd) (fuel : Nat) (b : Bytes) (n : Int) :
    Except Fault (Option (List (List Int))) :=
  re.FindAllStringIndex fuel (unsafeBytesString b) n

/-- Method `FindAllStringSubmatch`: appends the text of the whole match followed
by the text of each of the other groups. -/
def RegexpStd.FindAllStringSubmatch (re : RegexpStd) (fuel : Nat) (s : Str) (_n : Int) :
    Except Fault (Option (List (List Str))) :=
  allMatches re (fun m => .ok ([m.String] ++ m.otherGroups.map (fun g => g.String))) fuel s

/-- Method `FindAllStringSubmatchIndex`: appends `m.Group.Index` followed by the
`Index` of each of the other groups. -/
def RegexpStd.FindAllStringSubmatchIndex (re : RegexpStd) (fuel : Nat) (s : Str) (_n : Int) :
    Except Fault (Option (List (List Int))) :=
  allMatches re (fun m => .ok ([m.Index] ++ m.otherGroups.map (fun g => g.Index))) fuel s

/-- Method `FindAllSubmatchIndex`. -/
def RegexpStd.FindAllSubmatchIndex (re : RegexpStd) (fuel : Nat) (b : Bytes) (n : Int) :
    Except Fault (Option (List (List Int))) :=
  re.FindAllStringSubmatchIndex fuel (unsafeBytesString b) n

/-- The inner loop of `FindAllSubmatch` over `j < matchSize`, with `k`
iterations left: appends `b[m[2*j]:m[2*j+1]:m[2*j+1]]`. -/
def submatchLoop (b : Bytes) (m : List Int) : Nat → Nat → List Bytes → Except Fault (List Bytes)
  | 0, _, mtch => .ok mtch
  | k + 1, j, mtch => do
    let lo ← index m (2 * j)
    let hi ← index m (2 * j + 1)
    let sub ← b.slice3 lo hi hi
    submatchLoop b m k (j + 1) (mtch ++ [sub])

/-- The outer loop of `FindAllSubmatch` over `matches`. -/
def allSubmatchLoop (b : Bytes) : List (List Int) → List (List Bytes) →
    Except Fault (List (List Bytes))
  | [], result => .ok result
  | m :: rest, result => do
    let mtch ← submatchLoop b m (m.length / 2) 0 []
    allSubmatchLoop b rest (result ++ [mtch])

/-- Method `FindAllSubmatch`. -/
def RegexpStd.FindAllSubmatch (re : RegexpStd) (fuel : Nat) (b : Bytes) (n : Int) :
    Except Fault (Option (List (List Bytes))) := do
  let n := if n < 0 then (b.len : Int) + 1 else n
  let mtchs ← re.FindAllSubmatchIndex fuel b n
  let result ← allSubmatchLoop b (mtchs.getD []) []
  return some result

/-! ## Split -/

/-- The loop of `Split` over `matches`, carrying `strings`, `beg` and `end`;
the first alternative of the second equation is the `break`. -/
def splitLoop (s : Str) (n : Int) :
    List (List Int) → List Str → Int → Int → Except Fault (List Str × Int × Int)
  | [], strings, beg, end_ => .ok (strings, beg, end_)
  | mtch :: rest, strings, beg, end_ =>
    if n > 0 ∧ (strings.length : Int) ≥ n - 1 then .ok (strings, beg, end_)
    else do
      let end_ ← index mtch 0
      let m1 ← index mtch 1
      if m1 ≠ 0 then
        let piece ← sliceStr s beg end_
        splitLoop s n rest (strings ++ [piece]) m1 end_
      else
        splitLoop s n rest strings m1 end_

/-- Method `Split`. -/
def RegexpStd.Split (re : RegexpStd) (fuel : Nat) (s : Str) (n : Int) :
    Except Fault (Option (List Str)) :=
  if n = 0 then .ok none
  else if re.p.pattern.length > 0 ∧ s.length = 0 then .ok (some [[]])
  else do
    let mtchs ← re.FindAllStringIndex fuel s n
    let (strings, beg, end_) ← splitLoop s n (mtchs.getD []) [] 0 0
    if end_ ≠ (s.length : Int) then
      let piece ← sliceFrom s beg
      return some (strings ++ [piece])
    else
      return some strings

/-! ## Replace -/

/-- Function `makeRepFunc`: the engine's evaluator for a callback on the matched text. -/
def makeRepFunc (f : Str → Str) : Match → Str := fun m => f m.String

/-- Method `ReplaceAllString`. -/
def RegexpStd.ReplaceAllString (re : RegexpStd) (src repl : Str) : Str :=
  match re.p.Replace src repl 0 (-1) with
  | .error _ => src
  | .ok rep => rep

/-- Method `ReplaceAllLiteralString`. -/
def RegexpStd.ReplaceAllLiteralString (re : RegexpStd) (src repl : Str) : Str :=
  match re.p.Replace src repl 0 (-1) with
  | .error _ => src
  | .ok r => r

/-- Method `ReplaceAllStringFunc`. -/
def RegexpStd.ReplaceAllStringFunc (re : RegexpStd) (src : Str) (repl : Str → Str) : Str :=
  match re.p.ReplaceFunc src (makeRepFunc repl) 0 (-1) with
  | .error _ => src
  | .ok rep => rep

/-- Method `ReplaceAll`. -/
def RegexpStd.ReplaceAll (re : RegexpStd) (src repl : Bytes) : Bytes :=
  Bytes.ofStr (re.ReplaceAllString (unsafeBytesString src) (unsafeBytesString repl))

/-! ## Engines for concrete inputs

The adapter is evaluated on concrete inputs against an engine given by the
successive matches it finds in one text. -/

/-- A capture group with span `(idx, len)` in `text`. -/
def mkGroup (text : Str) (idx len : Int) : Group := { text := text, Index := idx, Length := len }

/-- A match with span `(idx, len)` in `text` and the given other groups. -/
def mkMatch (text : Str) (idx len : Int) (groups : List (Int × Int)) : Match :=
  { text := text, Index := idx, Length := len,
    otherGroups := groups.map (fun g => mkGroup text g.1 g.2) }

/-- Modelled from the spec: the template expansion of the engine's replace
primitive, for the two references `$$` (a literal `$`) and `$0` (the text of the
whole match); every other byte of the template is copied. -/
def expandTemplate (m : Match) : Str → Str
  | [] => []
  | [c] => [c]
  | c :: d :: rest =>
    if c = 36 ∧ d = 36 then 36 :: expandTemplate m rest
    else if c = 36 ∧ d = 48 then m.String ++ expandTemplate m rest
    else c :: expandTemplate m (d :: rest)

/-- Modelled from the spec: one pass of substitution over the successive
matches, from position `pos` of `text`: the text between matches is kept and
each match is replaced by `f` of it. -/
def substitute (text : Str) (f : Match → Str) : List Match → Nat → Str
  | [], pos => text.drop pos
  | m :: ms, pos =>
    (text.drop pos).take (m.Index.toNat - pos) ++ f m ++
      substitute text f ms (m.Index + m.Length).toNat

/-- Modelled from the spec: an engine for the pattern `pattern` that, on the text
`text`, finds the successive matches `found` (strictly increasing in `Index`),
finds nothing in any other text, never reports an error, and whose replace
primitives substitute over all of `found` (template expansion for `Replace`, the
evaluator for `ReplaceFunc`). -/
def scripted (pattern text : Str) (found : List Match) : Regexp where
  pattern := pattern
  FcPrefix := none
  MatchString := fun s => .ok (decide (s = text) && !found.isEmpty)
  FindStringMatch := fun s => .ok (if s = text then found.head? else none)
  FindNextMatch := fun m => .ok ((found.dropWhile (fun x => decide (x.Index ≤ m.Index))).head?)
  Replace := fun src repl _ _ =>
    .ok (if src = text then substitute text (fun m => expandTemplate m repl) found 0 else src)
  ReplaceFunc := fun src ev _ _ =>
    .ok (if src = text then substitute text ev found 0 else src)

/-- The pattern `b` over the text `aab`: one match, at index 2 with length 1. -/
def reB : RegexpStd := ⟨scripted (bytes "b") (bytes "aab") [mkMatch (bytes "aab") 2 1 []]⟩

/-- The pattern `(a)(b)` over the text `xab`: one match, at index 1 with length
2; group 1 is at index 1 with length 1, group 2 at index 2 with length 1. -/
def reAB : RegexpStd :=
  ⟨scripted (bytes "(a)(b)") (bytes "xab") [mkMatch (bytes "xab") 1 2 [(1, 1), (2, 1)]]⟩

/-- The pattern `o` over the text `foo boo`: four matches of length 1, at
indices 1, 2, 5 and 6. -/
def reO : RegexpStd :=
  ⟨scripted (bytes "o") (bytes "foo boo")
    ([1, 2, 5, 6].map (fun i => mkMatch (bytes "foo boo") i 1 []))⟩

/-- The text of the example in the comment of `Split`. -/
def splitText : Str := bytes "abaabaccadaaae"

/-- The pattern `a*` over `abaabaccadaaae`, with the successive matches of the
engine's protocol (after an empty match the search resumes one position
further; an empty match may follow a match directly): as `(Index, Length)`,
(0,1) (1,0) (2,2) (4,0) (5,1) (6,0) (7,0) (8,1) (9,0) (10,3) (13,0) (14,0). -/
def reAStar : RegexpStd :=
  ⟨scripted (bytes "a*") splitText
    ([(0, 1), (1, 0), (2, 2), (4, 0), (5, 1), (6, 0), (7, 0), (8, 1), (9, 0), (10, 3),
      (13, 0), (14, 0)].map (fun (x : Int × Int) => mkMatch splitText x.1 x.2 []))⟩

/-- The pattern `a*` over `abaabaccadaaae`, with the successive matches in which
no empty match is adjacent to the preceding match: as `(Index, Length)`,
(0,1) (2,2) (5,1) (7,0) (8,1) (10,3) (14,0). -/
def reAStarSparse : RegexpStd :=
  ⟨scripted (bytes "a*") splitText
    ([(0, 1), (2, 2), (5, 1), (7, 0), (8, 1), (10, 3), (14, 0)].map
      (fun (x : Int × Int) => mkMatch splitText x.1 x.2 []))⟩

/-- The pieces and separators of a split put back together: piece, separator,
piece, separator, and so on. -/
def interleave : List Str → List Str → Str
  | [], _ => []
  | p :: ps, [] => p ++ interleave ps []
  | p :: ps, sep :: seps => p ++ sep ++ interleave ps seps

/-! ## The find-first / find-next protocol -/

/-- From the match `m`, `FindNextMatch` returns the matches of `rest` one after
the other, each asked from the one before, and then reports no further match. -/
def nextYields (re : Regexp) : Match → List Match → Bool
  | m, [] => decide (re.FindNextMatch m = .ok none)
  | m, m' :: rest => decide (re.FindNextMatch m = .ok (some m')) && nextYields re m' rest

/-- On the text `s` the engine yields exactly the finite sequence of matches
`ms`, without error: `FindStringMatch` returns the first, `FindNextMatch` each
following one, and after the last there is no further match. -/
def yields (re : Regexp) (s : Str) : List Match → Bool
  | [] => decide (re.FindStringMatch s = .ok none)
  | m :: rest => decide (re.FindStringMatch s = .ok (some m)) && nextYields re m rest

/-- From the match `m`, `FindNextMatch` returns the matches of `rest` one after
the other and reports an error when asked for the match after the last. -/
def nextFails (re : Regexp) : Match → List Match → Bool
  | m, [] =>
    match re.FindNextMatch m with
    | .error _ => true
    | .ok _ => false
  | m, m' :: rest => decide (re.FindNextMatch m = .ok (some m')) && nextFails re m' rest

/-- On the text `s` the engine yields the matches `ms`, at least one, and then
reports a matching error when asked for the match after the last of them. -/
def yieldsThenFails (re : Regexp) (s : Str) : List Match → Bool
  | [] => false
  | m :: rest => decide (re.FindStringMatch s = .ok (some m)) && nextFails re m rest

/-- The match-sequence invariants of the data model, for a text of length `len`
and matches starting at or after `lb`: each match has `lb <= Index`, a
non-negative `Length` and `Index + Length <= len`, and the next match starts at
or after the end of this one. -/
def spansOrdered (len : Int) : Int → List Match → Bool
  | _, [] => true
  | lb, m :: rest =>
    decide (lb ≤ m.Index) && decide (0 ≤ m.Length) && decide (m.Index + m.Length ≤ len) &&
      spansOrdered len (m.Index + m.Length) rest

/-! ## Further engines for concrete inputs -/

/-- An engine every entry point of which reports the matching error
`match timeout`. -/
def timedOut (pattern : Str) : Regexp where
  pattern := pattern
  FcPrefix := none
  MatchString := fun _ => .error "match timeout"
  FindStringMatch := fun _ => .error "match timeout"
  FindNextMatch := fun _ => .error "match timeout"
  Replace := fun _ _ _ _ => .error "match timeout"
  ReplaceFunc := fun _ _ _ _ => .error "match timeout"

/-- The pattern `b` on an engine that times out. -/
def reTimedOut : RegexpStd := ⟨timedOut (bytes "b")⟩

/-- The pattern `o` over the text `foo boo` on an engine that finds the matches
at indices 1 and 2 and reports a matching error when asked for the match after
the second. -/
def reOFail : RegexpStd :=
  ⟨{ reO.p with
      FindNextMatch := fun m =>
        if m.Index < 2 then reO.p.FindNextMatch m else .error "match timeout" }⟩

/-- The pattern `abc`, with the record `code.FcPrefix` holding the prefix `abc`,
not case-insensitive. -/
def reLiteral : RegexpStd :=
  ⟨{ scripted (bytes "abc") (bytes "abc") [mkMatch (bytes "abc") 0 3 []] with
      FcPrefix := some ⟨bytes "abc", false⟩ }⟩

/-- The pattern `(?i)ab.*`, with the record `code.FcPrefix` holding the prefix
`ab`, case-insensitive. -/
def reFolded : RegexpStd :=
  ⟨{ scripted (bytes "(?i)ab.*") (bytes "ABC") [mkMatch (bytes "ABC") 0 3 []] with
      FcPrefix := some ⟨bytes "ab", true⟩ }⟩

/-- The four matches of `o` in `foo boo`. -/
def fooMatches : List Match := [1, 2, 5, 6].map (fun i => mkMatch (bytes "foo boo") i 1 [])


/-- The successive matches of `a*` over `abaabaccadaaae` that the engine of
`reAStar` finds. -/
def aStarMatches : List Match :=
  [(0, 1), (1, 0), (2, 2), (4, 0), (5, 1), (6, 0), (7, 0), (8, 1), (9, 0), (10, 3),
    (13, 0), (14, 0)].map (fun (x : Int × Int) => mkMatch splitText x.1 x.2 [])

/-! ## Unsupported entry points

The body of each of these methods is a single `panic`. -/

/-- An `io.RuneReader`, as the sequence of runes it delivers. -/
abbrev RuneReader := List Nat

/-- Method `Longest`: `panic("Longest unsupport")`. -/
def RegexpStd.Longest (_re : RegexpStd) : Except Fault Unit := .error .panic

/-- Method `MatchReader`: `panic("unsupport MatchReader")`. -/
def RegexpStd.MatchReader (_re : RegexpStd) (_r : RuneReader) : Except Fault Bool :=
  .error .panic

/-- Method `FindReaderIndex`: `panic("unsupport FindReaderIndex")`. -/
def RegexpStd.FindReaderIndex (_re : RegexpStd) (_r : RuneReader) :
    Except Fault (Option (List Int)) :=
  .error .panic

/-- Method `FindReaderSubmatchIndex`: `panic("unsupport FindReaderSubmatchIndex")`. -/
def RegexpStd.FindReaderSubmatchIndex (_re : RegexpStd) (_r : RuneReader) :
    Except Fault (Option (List Int)) :=
  .error .panic

/-- Method `ReplaceAllLiteral`: `panic("")`. -/
def RegexpStd.ReplaceAllLiteral (_re : RegexpStd) (_src _repl : Bytes) : Except Fault Bytes :=
  .error .panic

/-- Method `ReplaceAllFunc`: `panic("")`. -/
def RegexpStd.ReplaceAllFunc (_re : RegexpStd) (_src : Bytes) (_repl : Bytes → Bytes) :
    Except Fault Bytes :=
  .error .panic

/-! ## The slice expressions `Split` evaluates -/

/-- The bounds `(beg, end)` of the slice expressions `s[beg:end]` that the loop
of `Split` evaluates, in order, up to and including the first one that panics.
It follows `splitLoop` branch for branch. -/
def splitLoopSlices (s : Str) (n : Int) : List (List Int) → List Str → Int → List (Int × Int)
  | [], _, _ => []
  | mtch :: rest, strings, beg =>
    if n > 0 ∧ (strings.length : Int) ≥ n - 1 then []
    else
      match index mtch 0, index mtch 1 with
      | .ok end_, .ok m1 =>
        if m1 ≠ 0 then
          match sliceStr s beg end_ with
          | .ok piece => (beg, end_) :: splitLoopSlices s n rest (strings ++ [piece]) m1
          | .error _ => [(beg, end_)]
        else splitLoopSlices s n rest strings m1
      | _, _ => []

/-- The bounds of all the slice expressions that `Split` evaluates: those of
its loop and then, when the loop has ended with `end != len(s)`, the bounds
`(beg, len(s))` of `s[beg:]`. -/
def RegexpStd.SplitSlices (re : RegexpStd) (fuel : Nat) (s : Str) (n : Int) : List (Int × Int) :=
  if n = 0 then []
  else if re.p.pattern.length > 0 ∧ s.length = 0 then []
  else
    match re.FindAllStringIndex fuel s n with
    | .error _ => []
    | .ok mtchs =>
      splitLoopSlices s n (mtchs.getD []) [] 0 ++
        (match splitLoop s n (mtchs.getD []) [] 0 0 with
          | .ok (_, beg, end_) => if end_ ≠ (s.length : Int) then [(beg, (s.length : Int))] else []
          | .error _ => [])

/-- A slice expression with the bounds `p` on a string of length `len` is in
range: `0 <= beg <= end <= len`. -/
abbrev inRange (len : Nat) (p : Int × Int) : Prop := 0 ≤ p.1 ∧ p.1 ≤ p.2 ∧ p.2 ≤ (len : Int)


/-! ## Lemmas on `special` and `QuoteMeta` -/

theorem special_backslash : special 92 = true := by decide

theorem special_lt (b : Nat) (h : special b = true) : b < 128 := by
  unfold special at h
  simp only [Bool.and_eq_true, decide_eq_true_eq] at h
  exact h.1

theorem take_succ_set (b : List Nat) (j v : Nat) (h : j < b.length) :
    (b.set j v).take (j + 1) = b.take j ++ [v] := by
  induction b generalizing j with
  | nil => simp at h
  | cons x xs ih =>
    cases j with
    | zero => simp
    | succ k =>
      have hk : k < xs.length := by simpa using h
      simp [ih k hk]

theorem flatMap_escapeByte_id (l : Str) (h : ∀ c ∈ l, special c = false) :
    l.flatMap escapeByte = l := by
  induction l with
  | nil => rfl
  | cons x xs ih =>
    have hx : special x = false := h x (List.mem_cons_self _ _)
    have hxs : ∀ c ∈ xs, special c = false := fun c hc => h c (List.mem_cons_of_mem _ hc)
    simp [List.flatMap_cons, escapeByte, hx, ih hxs]

theorem scanSpecial_spec (rest : Str) (i : Nat) :
    ∃ k, scanSpecial rest i = i + k ∧ k ≤ rest.length ∧
      (∀ c ∈ rest.take k, special c = false) ∧
      (k < rest.length → ∃ c, rest[k]? = some c ∧ special c = true) := by
  induction rest generalizing i with
  | nil => exact ⟨0, by simp [scanSpecial]⟩
  | cons x xs ih =>
    by_cases hx : special x = true
    · exact ⟨0, by simp [scanSpecial, hx]⟩
    · obtain ⟨k, hk, hle, hall, hnext⟩ := ih (i + 1)
      have hx' : special x = false := by simpa using hx
      refine ⟨k + 1, ?_, ?_, ?_, ?_⟩
      · simp [scanSpecial, hx', hk]; omega
      · simpa using hle
      · intro c hc
        simp only [List.take_succ_cons, List.mem_cons] at hc
        rcases hc with rfl | hc
        · exact hx'
        · exact hall c hc
      · intro hlt
        have : k < xs.length := by simpa using hlt
        simpa using hnext this

theorem quoteLoop_eq (rest : Str) : ∀ (b : List Nat) (j : Nat),
    j + 2 * rest.length ≤ b.length →
    quoteLoop rest b j = .ok (b.take j ++ rest.flatMap escapeByte) := by
  induction rest with
  | nil =>
    intro b j h
    have hj : j ≤ b.length := by simpa using h
    simp [quoteLoop, hj]
  | cons c rest ih =>
    intro b j h
    have hlen : j + 2 * rest.length + 2 ≤ b.length := by
      simp only [List.length_cons] at h; omega
    by_cases hc : special c = true
    · have h1 : j < b.length := by omega
      have h2 : j + 1 < (b.set j 92).length := by simp; omega
      have h3 : j + 2 + 2 * rest.length ≤ ((b.set j 92).set (j + 1) c).length := by
        simp; omega
      simp only [quoteLoop, hc, if_true, store, h1, h2, ih _ _ h3]
      rw [take_succ_set _ _ _ h2, take_succ_set _ _ _ h1]
      simp [List.flatMap_cons, escapeByte, hc]
    · have hc' : special c = false := by simpa using hc
      have h1 : j < b.length := by omega
      have h3 : j + 1 + 2 * rest.length ≤ (b.set j c).length := by simp; omega
      simp only [quoteLoop, hc', store, h1, if_true, ih _ _ h3]
      rw [take_succ_set _ _ _ h1]
      simp [List.flatMap_cons, escapeByte, hc']

theorem QuoteMeta_eq (s : Str) : QuoteMeta s = .ok (s.flatMap escapeByte) := by
  obtain ⟨k, hk, hle, hall, _⟩ := scanSpecial_spec s 0
  have hk' : scanSpecial s 0 = k := by simpa using hk
  unfold QuoteMeta
  simp only [hk']
  by_cases hge : k ≥ s.length
  · have : k = s.length := le_antisymm hle hge
    subst this
    simp only [List.take_length] at hall
    simp [flatMap_escapeByte_id s hall]
  · have hlt : k < s.length := by omega
    have htk : (s.take k).length = k := by simp; omega
    have hb : copy (List.replicate (2 * s.length - k) 0) (s.take k)
        = s.take k ++ List.replicate (2 * s.length - k - k) 0 := by
      unfold copy
      rw [htk]
      simp only [List.length_replicate, List.drop_replicate, List.take_take]
      congr 2
      omega
    have hbl : k + 2 * (s.drop k).length ≤
        (copy (List.replicate (2 * s.length - k) 0) (s.take k)).length := by
      rw [hb]; simp; omega
    rw [if_neg hge, quoteLoop_eq _ _ _ hbl, hb]
    have h1 : (s.take k ++ List.replicate (2 * s.length - k - k) 0).take k = s.take k := by
      rw [List.take_append_of_le_length (by omega)]
      exact List.take_of_length_le (by omega)
    rw [h1]
    conv_rhs => rw [← List.take_append_drop k s, List.flatMap_append,
      flatMap_escapeByte_id _ hall]

theorem unquote_escape (s : Str) : unquote (s.flatMap escapeByte) = s := by
  induction s with
  | nil => rfl
  | cons c rest ih =>
    by_cases hc : special c = true
    · simp [List.flatMap_cons, escapeByte, hc, unquote, ih]
    · have hc' : special c = false := by simpa using hc
      have hne : c ≠ 92 := by
        intro h; rw [h, special_backslash] at hc'; exact absurd hc' (by decide)
      simp only [List.flatMap_cons, escapeByte, hc', List.singleton_append]
      cases hrest : rest.flatMap escapeByte with
      | nil =>
        rw [hrest] at ih
        simp [unquote, ← ih]
      | cons d ds =>
        rw [hrest] at ih
        simp [unquote, hne, ih]

/-! ## Lemmas on the submatch index lists -/

theorem length_flatMap_pair (gs : List Group) :
    (gs.flatMap (fun g => [g.Index, g.Length])).length = 2 * gs.length := by
  induction gs with
  | nil => rfl
  | cons g gs ih => simp [List.flatMap_cons, ih]; omega

theorem sliceLen_submatchIndex (re : RegexpStd) (b : Bytes) :
    sliceLen (re.FindStringSubmatchIndex (unsafeBytesString b)) =
      2 * sliceLen (re.FindSubmatchIndex b) := by
  unfold RegexpStd.FindStringSubmatchIndex RegexpStd.FindSubmatchIndex
  cases h : re.p.FindStringMatch (unsafeBytesString b) with
  | error e => rfl
  | ok r =>
    cases r with
    | none => rfl
    | some m =>
      have h2 := length_flatMap_pair m.otherGroups
      simp only [sliceLen, Option.getD_some, List.length_append, List.length_cons,
        List.length_nil, List.length_map, h2]
      omega

/-! ## Lemmas on the all-matches loop -/

theorem allLoop_none {α : Type} (re : RegexpStd) (proj : Match → Except Fault α) (fuel : Nat)
    (acc : Option (List α)) : allLoop re proj fuel none acc = .ok acc := by
  cases fuel <;> rfl

theorem allLoop_yields {α : Type} (re : RegexpStd) (proj : Match → α) (rest : List Match) :
    ∀ (m : Match) (fuel : Nat) (acc : Option (List α)),
      nextYields re.p m rest = true → rest.length + 1 ≤ fuel →
      allLoop re (fun x => .ok (proj x)) fuel (some m) acc =
        .ok (some (acc.getD [] ++ (m :: rest).map proj)) := by
  induction rest with
  | nil =>
    intro m fuel acc hy hf
    obtain ⟨f, rfl⟩ : ∃ f, fuel = f + 1 := ⟨fuel - 1, by simp at hf; omega⟩
    have hnext : re.p.FindNextMatch m = .ok none := by simpa [nextYields] using hy
    simp [allLoop, hnext, allLoop_none, sliceAppend]
  | cons m' rest ih =>
    intro m fuel acc hy hf
    obtain ⟨f, rfl⟩ : ∃ f, fuel = f + 1 := ⟨fuel - 1, by simp at hf; omega⟩
    simp only [nextYields, Bool.and_eq_true, decide_eq_true_eq] at hy
    have hf' : rest.length + 1 ≤ f := by simp at hf; omega
    simp [allLoop, hy.1, ih m' f _ hy.2 hf', sliceAppend]

theorem allLoop_fails {α : Type} (re : RegexpStd) (proj : Match → α) (rest : List Match) :
    ∀ (m : Match) (fuel : Nat) (acc : Option (List α)),
      nextFails re.p m rest = true → rest.length + 1 ≤ fuel →
      allLoop re (fun x => .ok (proj x)) fuel (some m) acc = .ok none := by
  induction rest with
  | nil =>
    intro m fuel acc hy hf
    obtain ⟨f, rfl⟩ : ∃ f, fuel = f + 1 := ⟨fuel - 1, by simp at hf; omega⟩
    unfold nextFails at hy
    cases hnext : re.p.FindNextMatch m with
    | error e => simp [allLoop, hnext]
    | ok r => rw [hnext] at hy; exact absurd hy (by simp)
  | cons m' rest ih =>
    intro m fuel acc hy hf
    obtain ⟨f, rfl⟩ : ∃ f, fuel = f + 1 := ⟨fuel - 1, by simp at hf; omega⟩
    simp only [nextFails, Bool.and_eq_true, decide_eq_true_eq] at hy
    have hf' : rest.length + 1 ≤ f := by simp at hf; omega
    simp [allLoop, hy.1, ih m' f _ hy.2 hf']

theorem allMatches_yields {α : Type} (re : RegexpStd) (proj : Match → α) (s : Str)
    (ms : List Match) (fuel : Nat) (hy : yields re.p s ms = true) (hf : ms.length ≤ fuel) :
    allMatches re (fun x => .ok (proj x)) fuel s =
      .ok (if ms = [] then none else some (ms.map proj)) := by
  cases ms with
  | nil =>
    have h0 : re.p.FindStringMatch s = .ok none := by simpa [yields] using hy
    simp [allMatches, h0, allLoop_none]
  | cons m rest =>
    simp only [yields, Bool.and_eq_true, decide_eq_true_eq] at hy
    have hf' : rest.length + 1 ≤ fuel := by simpa using hf
    simp [allMatches, hy.1, allLoop_yields re proj rest m fuel none hy.2 hf']

theorem allMatches_fails {α : Type} (re : RegexpStd) (proj : Match → α) (s : Str)
    (ms : List Match) (fuel : Nat) (hy : yieldsThenFails re.p s ms = true)
    (hf : ms.length ≤ fuel) :
    allMatches re (fun x => .ok (proj x)) fuel s = .ok none := by
  cases ms with
  | nil => simp [yieldsThenFails] at hy
  | cons m rest =>
    simp only [yieldsThenFails, Bool.and_eq_true, decide_eq_true_eq] at hy
    have hf' : rest.length + 1 ≤ fuel := by simpa using hf
    simp [allMatches, hy.1, allLoop_fails re proj rest m fuel none hy.2 hf']

/-! ## Lemmas on `Split` -/

theorem index_pair (a b : Int) : index [a, b] 0 = .ok a ∧ index [a, b] 1 = .ok b :=
  ⟨rfl, rfl⟩

theorem splitLoop_length (s : Str) (n : Int) (hn : 0 < n) (ms : List (List Int)) :
    ∀ (strings : List Str) (beg end_ : Int) (out : List Str × Int × Int),
      splitLoop s n ms strings beg end_ = .ok out →
      (strings.length : Int) ≤ n - 1 → (out.1.length : Int) ≤ n - 1 := by
  induction ms with
  | nil =>
    intro strings beg end_ out h hl
    simp only [splitLoop, Except.ok.injEq] at h
    rw [← h]; exact hl
  | cons mtch rest ih =>
    intro strings beg end_ out h hl
    by_cases hbrk : n > 0 ∧ (strings.length : Int) ≥ n - 1
    · simp only [splitLoop, if_pos hbrk, Except.ok.injEq] at h
      rw [← h]; exact hl
    · have hlt : (strings.length : Int) < n - 1 := by
        by_contra hc; exact hbrk ⟨hn, by omega⟩
      simp only [splitLoop, if_neg hbrk, bind, Except.bind] at h
      cases h0 : index mtch 0 with
      | error e => simp [h0] at h
      | ok e0 =>
        cases h1 : index mtch 1 with
        | error e => simp [h0, h1] at h
        | ok m1 =>
          simp only [h0, h1] at h
          by_cases hz : m1 ≠ 0
          · simp only [if_pos hz] at h
            cases hs : sliceStr s beg e0 with
            | error e => simp [hs] at h
            | ok piece =>
              simp only [hs] at h
              refine ih _ _ _ _ h ?_
              simp only [List.length_append, List.length_singleton, Nat.cast_add, Nat.cast_one]
              omega
          · simp only [if_neg hz] at h
            exact ih _ _ _ _ h hl

theorem splitLoop_ok (s : Str) (n : Int) (ms : List Match) :
    ∀ (strings : List Str) (beg end_ lb : Int),
      spansOrdered s.length lb ms = true → 0 ≤ beg → beg ≤ lb → beg ≤ s.length →
      ∃ out : List Str × Int × Int,
        splitLoop s n (ms.map (fun m => [m.Index, m.Length])) strings beg end_ = .ok out ∧
        0 ≤ out.2.1 ∧ out.2.1 ≤ s.length := by
  induction ms with
  | nil =>
    intro strings beg end_ lb _ h0 _ hlen
    exact ⟨(strings, beg, end_), rfl, h0, hlen⟩
  | cons m rest ih =>
    intro strings beg end_ lb ho h0 hlb hlen
    simp only [spansOrdered, Bool.and_eq_true, decide_eq_true_eq] at ho
    obtain ⟨⟨⟨h1, h2⟩, h3⟩, h4⟩ := ho
    by_cases hbrk : n > 0 ∧ (strings.length : Int) ≥ n - 1
    · exact ⟨(strings, beg, end_), by simp [splitLoop, hbrk], h0, hlen⟩
    · have hnext := fun strs => ih strs m.Length m.Index (m.Index + m.Length) h4 h2
        (by omega) (by omega)
      simp only [List.map_cons, splitLoop, if_neg hbrk, bind, Except.bind,
        (index_pair m.Index m.Length).1, (index_pair m.Index m.Length).2]
      by_cases hz : m.Length ≠ 0
      · have hs : sliceStr s beg m.Index =
            .ok ((s.drop beg.toNat).take (m.Index - beg).toNat) := by
          unfold sliceStr
          rw [if_pos ⟨h0, by omega, by omega⟩]
        simp only [if_pos hz, hs]
        exact hnext _
      · simp only [if_neg hz]
        exact hnext _

theorem Split_bound_of_ok (re : RegexpStd) (fuel : Nat) (s : Str) (n : Int) (r : List Str)
    (hn : 0 < n) (h : re.Split fuel s n = .ok (some r)) :
    (r.length : Int) ≤ n ∧
      ((r.length : Int) = n → ∃ beg : Nat, beg ≤ s.length ∧ r.getLast? = some (s.drop beg)) := by
  have hn0 : ¬ n = 0 := by omega
  unfold RegexpStd.Split at h
  rw [if_neg hn0] at h
  by_cases hempty : re.p.pattern.length > 0 ∧ s.length = 0
  · rw [if_pos hempty] at h
    simp only [Except.ok.injEq, Option.some.injEq] at h
    subst h
    refine ⟨by simp; omega, fun _ => ⟨0, by omega, ?_⟩⟩
    have hs : s = [] := List.length_eq_zero.mp hempty.2
    simp [hs]
  · rw [if_neg hempty] at h
    simp only [bind, Except.bind] at h
    cases hm : re.FindAllStringIndex fuel s n with
    | error e => simp [hm] at h
    | ok mtchs =>
      simp only [hm] at h
      cases hl : splitLoop s n (mtchs.getD []) [] 0 0 with
      | error e => simp [hl] at h
      | ok out =>
        obtain ⟨strings, beg, end_⟩ := out
        have hlen := splitLoop_length s n hn _ _ _ _ _ hl (by simp; omega)
        simp only [hl] at h
        by_cases he : end_ ≠ (s.length : Int)
        · simp only [if_pos he] at h
          unfold sliceFrom at h
          by_cases hb : 0 ≤ beg ∧ beg ≤ (s.length : Int)
          · simp only [if_pos hb, pure, Except.pure, Except.ok.injEq, Option.some.injEq] at h
            subst h
            refine ⟨?_, fun _ => ⟨beg.toNat, by omega, by simp⟩⟩
            simp only [List.length_append, List.length_singleton, Nat.cast_add, Nat.cast_one]
            simp only at hlen
            omega
          · simp [if_neg hb] at h
        · simp only [if_neg he, pure, Except.pure, Except.ok.injEq, Option.some.injEq] at h
          subst h
          simp only at hlen
          exact ⟨by omega, fun hc => by omega⟩

theorem Split_returns (re : RegexpStd) (s : Str) (ms : List Match) (fuel : Nat) (n : Int)
    (hn : ¬ n = 0) (hy : yields re.p s ms = true) (ho : spansOrdered s.length 0 ms = true)
    (hf : ms.length ≤ fuel) : ∃ r, re.Split fuel s n = .ok (some r) := by
  unfold RegexpStd.Split
  rw [if_neg hn]
  by_cases hempty : re.p.pattern.length > 0 ∧ s.length = 0
  · exact ⟨[[]], by rw [if_pos hempty]⟩
  · rw [if_neg hempty]
    have hall : re.FindAllStringIndex fuel s n =
        .ok (if ms = [] then none else some (ms.map (fun m => [m.Index, m.Length]))) :=
      allMatches_yields re (fun m => [m.Index, m.Length]) s ms fuel hy hf
    have hget : (if ms = [] then none else some (ms.map (fun m => [m.Index, m.Length]))).getD []
        = ms.map (fun m : Match => [m.Index, m.Length]) := by
      cases ms <;> simp
    obtain ⟨out, hout, hb0, hb1⟩ :=
      splitLoop_ok s n ms [] 0 0 0 ho (le_refl _) (le_refl _) (by omega)
    obtain ⟨strings, beg, end_⟩ := out
    simp only [bind, Except.bind, hall, hget, hout]
    by_cases he : end_ ≠ (s.length : Int)
    · have hs : sliceFrom s beg = .ok (s.drop beg.toNat) := by
        unfold sliceFrom
        rw [if_pos ⟨hb0, hb1⟩]
      simp only [if_pos he, hs]
      exact ⟨_, rfl⟩
    · simp only [if_neg he]
      exact ⟨_, rfl⟩

/-! ## Lemmas on the length of `QuoteMeta` -/

theorem length_flatMap_escapeByte (s : Str) :
    (s.flatMap escapeByte).length = s.length + s.countP special := by
  induction s with
  | nil => rfl
  | cons c rest ih =>
    by_cases hc : special c = true
    · simp [List.flatMap_cons, escapeByte, hc, ih]; omega
    · have hc' : special c = false := by simpa using hc
      simp [List.flatMap_cons, escapeByte, hc', ih]; omega

theorem countP_special_le (s : Str) : s.countP special ≤ s.length - scanSpecial s 0 := by
  obtain ⟨k, hk, hle, hall, _⟩ := scanSpecial_spec s 0
  have hk' : scanSpecial s 0 = k := by simpa using hk
  have h0 : (s.take k).countP special = 0 := by
    rw [List.countP_eq_zero]
    intro c hc
    simp [hall c hc]
  have hsplit : s.countP special = (s.take k).countP special + (s.drop k).countP special := by
    rw [← List.countP_append, List.take_append_drop]
  have hdrop : (s.drop k).countP special ≤ (s.drop k).length := List.countP_le_length _
  rw [hk', hsplit, h0]
  simpa using hdrop

/-! ## Lemmas on the slice expressions of `Split` -/

theorem splitLoopSlices_inRange (s : Str) (n : Int) (ms : List Match) :
    ∀ (strings : List Str) (beg lb : Int),
      spansOrdered s.length lb ms = true → 0 ≤ beg → beg ≤ lb →
      ∀ p ∈ splitLoopSlices s n (ms.map (fun m => [m.Index, m.Length])) strings beg,
        inRange s.length p := by
  induction ms with
  | nil =>
    intro strings beg lb _ _ _ p hp
    simp [splitLoopSlices] at hp
  | cons m rest ih =>
    intro strings beg lb ho h0 hlb p hp
    simp only [spansOrdered, Bool.and_eq_true, decide_eq_true_eq] at ho
    obtain ⟨⟨⟨h1, h2⟩, h3⟩, h4⟩ := ho
    by_cases hbrk : n > 0 ∧ (strings.length : Int) ≥ n - 1
    · simp [splitLoopSlices, hbrk] at hp
    · have hnext := fun strs => ih strs m.Length (m.Index + m.Length) h4 h2 (by omega)
      simp only [List.map_cons, splitLoopSlices, if_neg hbrk,
        (index_pair m.Index m.Length).1, (index_pair m.Index m.Length).2] at hp
      by_cases hz : m.Length ≠ 0
      · have hs : sliceStr s beg m.Index =
            .ok ((s.drop beg.toNat).take (m.Index - beg).toNat) := by
          unfold sliceStr
          rw [if_pos ⟨h0, by omega, by omega⟩]
        simp only [if_pos hz, hs, List.mem_cons] at hp
        rcases hp with rfl | hp
        · exact ⟨h0, by simp only; omega, by simp only; omega⟩
        · exact hnext _ p hp
      · simp only [if_neg hz] at hp
        exact hnext _ p hp

theorem splitLoop_ok_of_slices (s : Str) (n : Int) (ms : List Match) :
    ∀ (strings : List Str) (beg end_ : Int),
      (∀ p ∈ splitLoopSlices s n (ms.map (fun m => [m.Index, m.Length])) strings beg,
        inRange s.length p) →
      ∃ out, splitLoop s n (ms.map (fun m => [m.Index, m.Length])) strings beg end_ = .ok out := by
  induction ms with
  | nil =>
    intro strings beg end_ _
    exact ⟨_, rfl⟩
  | cons m rest ih =>
    intro strings beg end_ hall
    by_cases hbrk : n > 0 ∧ (strings.length : Int) ≥ n - 1
    · exact ⟨(strings, beg, end_), by simp [splitLoop, hbrk]⟩
    · simp only [List.map_cons, splitLoopSlices, if_neg hbrk,
        (index_pair m.Index m.Length).1, (index_pair m.Index m.Length).2] at hall
      simp only [List.map_cons, splitLoop, if_neg hbrk, bind, Except.bind,
        (index_pair m.Index m.Length).1, (index_pair m.Index m.Length).2]
      by_cases hz : m.Length ≠ 0
      · simp only [if_pos hz] at hall ⊢
        cases hs : sliceStr s beg m.Index with
        | ok piece =>
          simp only [hs] at hall
          exact ih _ _ _ (fun p hp => hall p (List.mem_cons_of_mem _ hp))
        | error e =>
          simp only [hs, List.mem_singleton, forall_eq] at hall
          unfold sliceStr at hs
          rw [if_pos hall] at hs
          cases hs
      · simp only [if_neg hz] at hall ⊢
        exact ih _ _ _ hall

/-- The count bound of `Split`: for `n > 0`, whenever `Split(s, n)` returns, on any engine, it returns
at most `n` substrings, and when it returns exactly `n` the last one is a suffix
of `s` running to the end of `s`; and it does return, on any iteration budget of
at least the number of matches, when the engine yields on `s` a finite sequence
of matches that satisfies the match-sequence invariants. -/
theorem Split_at_most_n (re : RegexpStd) (s : Str) (fuel : Nat) (n : Int) (hn : 0 < n) :
    (∀ r, re.Split fuel s n = .ok (some r) →
      (r.length : Int) ≤ n ∧
        ((r.length : Int) = n →
          ∃ beg : Nat, beg ≤ s.length ∧ r.getLast? = some (s.drop beg))) ∧
    (∀ ms : List Match, yields re.p s ms = true → spansOrdered s.length 0 ms = true →
      ms.length ≤ fuel → ∃ r, re.Split fuel s n = .ok (some r)) :=
  ⟨fun r hr => Split_bound_of_ok re fuel s n r hn hr,
    fun ms hy ho hf => Split_returns re s ms fuel n (by omega) hy ho hf⟩

/-- The count bound of `Split` on the pattern `a*` over `abaabaccadaaae` with `n = 5`: `Split` returns
five substrings, the last of which is the text from index 1 to the end. -/
theorem Split_at_most_n_witness :
    (0 : Int) < 5 ∧ yields reAStar.p splitText aStarMatches = true ∧
    spansOrdered splitText.length 0 aStarMatches = true ∧ aStarMatches.length ≤ 12 ∧
    (∃ r, reAStar.Split 12 splitText 5 = .ok (some r)) ∧
    reAStar.Split 12 splitText 5 =
      .ok (some [bytes "", bytes "ab", bytes "abaab", bytes "abaabacc", bytes "baabaccadaaae"]) ∧
    ∃ beg : Nat, beg ≤ splitText.length ∧
      [bytes "", bytes "ab", bytes "abaab", bytes "abaabacc", bytes "baabaccadaaae"].getLast? =
        some (splitText.drop beg) :=
  ⟨by decide, by decide, by decide, by decide,
    (Split_at_most_n reAStar splitText 12 5 (by decide)).2 aStarMatches (by decide) (by decide)
      (by decide),
    by decide,
    ((Split_at_most_n reAStar splitText 12 5 (by decide)).1 _ (by decide)).2 (by decide)⟩

/-! ## The claims -/

/-- C1: `FindStringIndex` and `FindIndex` are documented to return the location
`loc` of the leftmost match with the match itself at `s[loc[0]:loc[1]]`. For
the pattern `b` in `aab` the engine's match has index 2 and length 1; both
methods return `[2, 1]`, the index and the length, so `loc[0] <= loc[1]` fails,
the slice `s[2:1]` is out of bounds, and the matched text `FindString` returns,
`b`, is `s[2:3]`. -/
theorem FindStringIndex_gives_length_not_end :
    reB.FindStringIndex (bytes "aab") = some [2, 1] ∧
    reB.FindIndex (Bytes.ofStr (bytes "aab")) = some [2, 1] ∧
    reB.FindString (bytes "aab") = bytes "b" ∧
    sliceStr (bytes "aab") 2 1 = .error .panic ∧
    sliceStr (bytes "aab") 2 3 = .ok (bytes "b") := by
  decide

/-- C2: the example in the comment of `Split`, `a*` over `abaabaccadaaae` with
`n = 5`, documented to give the pieces "", "b", "b", "c", "cadaaae". On the
successive matches of the engine `Split` returns "", "ab", "abaab", "abaabacc",
"baabaccadaaae"; on the successive matches without adjacent empty matches it
returns "", "b", "aab", "abaabacc", "baabaccadaaae". Neither is the documented
result. -/
theorem Split_documented_example :
    reAStar.Split 20 splitText 5 =
      .ok (some [bytes "", bytes "ab", bytes "abaab", bytes "abaabacc", bytes "baabaccadaaae"]) ∧
    reAStarSparse.Split 20 splitText 5 =
      .ok (some [bytes "", bytes "b", bytes "aab", bytes "abaabacc", bytes "baabaccadaaae"]) ∧
    reAStar.Split 20 splitText 5 ≠
      .ok (some [bytes "", bytes "b", bytes "b", bytes "c", bytes "cadaaae"]) ∧
    reAStarSparse.Split 20 splitText 5 ≠
      .ok (some [bytes "", bytes "b", bytes "b", bytes "c", bytes "cadaaae"]) := by
  decide

/-- C3: the split round trip fails for the pattern `b` over `aab` with `n = -1`:
the only match is the separator `b` at index 2, `Split` returns the pieces `aa`
and `ab`, and no choice of separators interleaved with these pieces gives back
`aab`, the pieces alone being longer than the text. -/
theorem Split_round_trip_fails :
    reB.Split 20 (bytes "aab") (-1) = .ok (some [bytes "aa", bytes "ab"]) ∧
    reB.FindAllString 20 (bytes "aab") (-1) = .ok (some [bytes "b"]) ∧
    interleave [bytes "aa", bytes "ab"] [bytes "b"] = bytes "aabab" ∧
    ∀ seps : List Str, interleave [bytes "aa", bytes "ab"] seps ≠ bytes "aab" := by
  refine ⟨by decide, by decide, by decide, ?_⟩
  intro seps h
  have hlen := congrArg List.length h
  cases seps with
  | nil => exact absurd hlen (by decide)
  | cons sep seps =>
    have h2 : 2 ≤ (interleave [bytes "ab"] seps).length := by
      cases seps <;> simp [interleave, bytes]
    simp only [interleave, List.length_append] at hlen
    have h3 : (bytes "aa").length = 2 := by decide
    have h4 : (bytes "aab").length = 3 := by decide
    omega

/-- C4: the count `n` does not bound the all-matches operations. For the pattern
`o` over `foo boo`, which has four matches, `FindAllString`,
`FindAllStringIndex`, `FindAllStringSubmatch` and `FindAllStringSubmatchIndex`
return four elements both for `n = 0` and for `n = 1`, and `FindAll` panics on
the second match; for every engine and text the result of each of the five is
the same for any two counts. -/
theorem FindAll_family_ignores_count :
    reO.FindAllString 20 (bytes "foo boo") 0 =
      .ok (some [bytes "o", bytes "o", bytes "o", bytes "o"]) ∧
    reO.FindAllString 20 (bytes "foo boo") 1 =
      .ok (some [bytes "o", bytes "o", bytes "o", bytes "o"]) ∧
    reO.FindAllStringIndex 20 (bytes "foo boo") 0 =
      .ok (some [[1, 1], [2, 1], [5, 1], [6, 1]]) ∧
    reO.FindAllStringSubmatch 20 (bytes "foo boo") 0 =
      .ok (some [[bytes "o"], [bytes "o"], [bytes "o"], [bytes "o"]]) ∧
    reO.FindAllStringSubmatchIndex 20 (bytes "foo boo") 0 = .ok (some [[1], [2], [5], [6]]) ∧
    reO.FindAll 20 (Bytes.ofStr (bytes "foo boo")) 0 = .error .panic ∧
    (∀ (re : RegexpStd) (fuel : Nat) (s : Str) (n k : Int),
      re.FindAllString fuel s n = re.FindAllString fuel s k ∧
      re.FindAllStringIndex fuel s n = re.FindAllStringIndex fuel s k ∧
      re.FindAllStringSubmatch fuel s n = re.FindAllStringSubmatch fuel s k ∧
      re.FindAllStringSubmatchIndex fuel s n = re.FindAllStringSubmatchIndex fuel s k) ∧
    (∀ (re : RegexpStd) (fuel : Nat) (b : Bytes) (n k : Int),
      re.FindAll fuel b n = re.FindAll fuel b k) := by
  refine ⟨by decide, by decide, by decide, by decide, by decide, by decide, ?_, ?_⟩
  · intro re fuel s n k
    exact ⟨rfl, rfl, rfl, rfl⟩
  · intro re fuel b n k
    rfl

/-- C5: `QuoteMeta` returns, for every string, the concatenation over its bytes
of backslash and the byte for a special byte and of the byte alone otherwise;
removing the inserted backslashes from the result gives the string back. -/
theorem QuoteMeta_escapes_each_special (s : Str) :
    ∃ q, QuoteMeta s = .ok q ∧ q = s.flatMap escapeByte ∧ unquote q = s :=
  ⟨s.flatMap escapeByte, QuoteMeta_eq s, rfl, unquote_escape s⟩

/-- C6: with the bitmap of sixteen bytes that `init` fills, `special` is true of
exactly the fourteen bytes of the literal: it is false of every byte from 0x80
on and of the hyphen, and `QuoteMeta` of `1.5-2.0?` escapes the two dots and
the question mark and leaves the hyphen. -/
theorem special_exactly_the_literal :
    specialBytes.length = 16 ∧ specialLiteral.length = 14 ∧
    (∀ b : Nat, special b = true ↔ b ∈ specialLiteral) ∧
    (∀ b : Nat, special (128 + b) = false) ∧
    special 45 = false ∧
    QuoteMeta (bytes "1.5-2.0?") = .ok (bytes "1\\.5-2\\.0\\?") := by
  refine ⟨by decide, by decide, ?_, ?_, by decide, by decide⟩
  · intro b
    by_cases hb : b < 128
    · have hall : ∀ c < 128, special c = true ↔ c ∈ specialLiteral := by decide
      exact hall b hb
    · constructor
      · intro h; exact absurd (special_lt b h) hb
      · intro h
        have hall : ∀ c ∈ specialLiteral, c < 128 := by decide
        exact absurd (hall b h) hb
  · intro b
    cases h : special (128 + b) with
    | false => rfl
    | true => have := special_lt _ h; omega

/-- C7: `ReplaceAllLiteralString` is documented to substitute `repl` directly,
without expansion. It calls the engine's template replace exactly as
`ReplaceAllString` does, so the two agree for every engine and input; for the
pattern `b` over `aab` and the replacement `$$` it returns `aa$`, where the
callback substitution with the constant callback returns `aa$$`. -/
theorem ReplaceAllLiteralString_expands_template :
    (∀ (re : RegexpStd) (src repl : Str),
      re.ReplaceAllLiteralString src repl = re.ReplaceAllString src repl) ∧
    reB.ReplaceAllLiteralString (bytes "aab") (bytes "$$") = bytes "aa$" ∧
    reB.ReplaceAllStringFunc (bytes "aab") (fun _ => bytes "$$") = bytes "aa$$" := by
  refine ⟨fun _ _ _ => rfl, by decide, by decide⟩

/-- C8: for the pattern `(a)(b)` over `xab`, `FindStringSubmatchIndex` returns
two integers for the whole match and for each group, `[1, 2, 1, 1, 2, 1]`, and
`FindSubmatchIndex` on the same bytes returns one integer for each,
`[1, 1, 2]`: the two differ. For every engine and byte slice the first list is
twice as long as the second. -/
theorem FindSubmatchIndex_drops_lengths :
    reAB.FindSubmatchIndex (Bytes.ofStr (bytes "xab")) = some [1, 1, 2] ∧
    reAB.FindStringSubmatchIndex (bytes "xab") = some [1, 2, 1, 1, 2, 1] ∧
    reAB.FindSubmatchIndex (Bytes.ofStr (bytes "xab")) ≠
      reAB.FindStringSubmatchIndex (unsafeBytesString (Bytes.ofStr (bytes "xab"))) ∧
    (∀ (re : RegexpStd) (b : Bytes),
      sliceLen (re.FindStringSubmatchIndex (unsafeBytesString b)) =
        2 * sliceLen (re.FindSubmatchIndex b)) := by
  refine ⟨by decide, by decide, by decide, ?_⟩
  intro re b
  exact sliceLen_submatchIndex re b

/-- C9: for the pattern `(a)(b)` over `xab`, the only element of
`FindAllStringSubmatchIndex(s, -1)` is `[1, 1, 2]`, one integer for the whole
match and for each group, and `FindStringSubmatchIndex(s)` is
`[1, 2, 1, 1, 2, 1]`: the first element of the one is not the other. -/
theorem FindAllStringSubmatchIndex_drops_lengths :
    reAB.FindAllStringSubmatchIndex 20 (bytes "xab") (-1) = .ok (some [[1, 1, 2]]) ∧
    reAB.FindStringSubmatchIndex (bytes "xab") = some [1, 2, 1, 1, 2, 1] := by
  decide

/-- C10: for the pattern `(a)(b)` over `xab`, `FindStringSubmatch` returns the
three texts `ab`, `a`, `b`, and `FindSubmatch` on the same bytes returns one
slice, which is empty; where there is no match, over `zzz`, `FindSubmatch`
returns an empty slice that is not `nil`. -/
theorem FindSubmatch_wrong_slices :
    reAB.FindStringSubmatch (bytes "xab") = some [bytes "ab", bytes "a", bytes "b"] ∧
    reAB.FindSubmatch (Bytes.ofStr (bytes "xab")) = .ok (some [⟨[], 0⟩]) ∧
    reAB.FindStringSubmatch (bytes "zzz") = none ∧
    reAB.FindSubmatch (Bytes.ofStr (bytes "zzz")) = .ok (some []) := by
  decide

/-- C11: `FindAll` does not return the matched texts that `FindAllString`
returns. For the pattern `(a)(b)` over `xab` the match has index 1 and length
2: `FindAllString` gives `ab` and `FindAll` gives `b[1:2]`, the single byte `a`.
For the pattern `b` over `aab` the match has index 2 and length 1:
`FindAllString` gives `b` and `FindAll` panics on `b[2:1:1]`. -/
theorem FindAll_slices_index_to_length :
    reAB.FindAllString 20 (bytes "xab") (-1) = .ok (some [bytes "ab"]) ∧
    reAB.FindAll 20 (Bytes.ofStr (bytes "xab")) (-1) = .ok (some [⟨bytes "a", 1⟩]) ∧
    reB.FindAllString 20 (bytes "aab") (-1) = .ok (some [bytes "b"]) ∧
    reB.FindAll 20 (Bytes.ofStr (bytes "aab")) (-1) = .error .panic := by
  decide

/-- C12: when the engine's find-first / find-next protocol yields the finite
sequence of matches `ms` on `s` without error, `FindAllString(s, -1)` returns,
on any iteration budget of at least the number of matches, exactly the matched
texts of `ms` in order, and `nil` when there is none. -/
theorem FindAllString_returns_matched_texts (re : RegexpStd) (s : Str) (ms : List Match)
    (fuel : Nat) (hy : yields re.p s ms = true) (hf : ms.length ≤ fuel) :
    re.FindAllString fuel s (-1) =
      .ok (if ms = [] then none else some (ms.map (fun m => m.String))) :=
  allMatches_yields re (fun m => m.String) s ms fuel hy hf

/-- C12, on the scenario of the specification: the pattern `o` over `foo boo`
has the four matches at indices 1, 2, 5, 6 and `FindAllString` returns
`o`, `o`, `o`, `o`. -/
theorem FindAllString_returns_matched_texts_witness :
    yields reO.p (bytes "foo boo") fooMatches = true ∧ fooMatches.length ≤ 4 ∧
    reO.FindAllString 4 (bytes "foo boo") (-1) =
      .ok (some [bytes "o", bytes "o", bytes "o", bytes "o"]) :=
  ⟨by decide, by decide,
    FindAllString_returns_matched_texts reO (bytes "foo boo") fooMatches 4 (by decide)
      (by decide)⟩

/-- C13: the elements of `FindAllSubmatch` do not have `1 + groupCount`
entries. For the pattern `(a)(b)` over `xab`, with two groups,
`FindStringSubmatch` and the element of `FindAllStringSubmatch` have three
entries and the element of `FindAllSubmatch` has one, an empty slice; for the
pattern `o` over `foo boo`, with no group, the elements of `FindAllSubmatch`
have no entry. -/
theorem FindAllSubmatch_wrong_entry_count :
    reAB.FindStringSubmatch (bytes "xab") = some [bytes "ab", bytes "a", bytes "b"] ∧
    reAB.FindAllStringSubmatch 20 (bytes "xab") (-1) =
      .ok (some [[bytes "ab", bytes "a", bytes "b"]]) ∧
    reAB.FindAllSubmatchIndex 20 (Bytes.ofStr (bytes "xab")) (-1) = .ok (some [[1, 1, 2]]) ∧
    reAB.FindAllSubmatch 20 (Bytes.ofStr (bytes "xab")) (-1) = .ok (some [[⟨[], 0⟩]]) ∧
    reO.FindAllSubmatch 20 (Bytes.ofStr (bytes "foo boo")) (-1) =
      .ok (some [[], [], [], []]) := by
  decide

/-- C14, as stated, fails: on the pattern `o` over `foo boo`, when the engine
finds two matches and reports an error when asked for the third,
`FindAllString` and `FindAllStringIndex` return `nil`, not the two results
found. -/
theorem FindAll_error_loses_matches :
    yieldsThenFails reOFail.p (bytes "foo boo") (fooMatches.take 2) = true ∧
    reOFail.FindAllString 20 (bytes "foo boo") (-1) = .ok none ∧
    reOFail.FindAllString 20 (bytes "foo boo") (-1) ≠ .ok (some [bytes "o", bytes "o"]) ∧
    reOFail.FindAllStringIndex 20 (bytes "foo boo") (-1) = .ok none ∧
    reOFail.FindAllStringIndex 20 (bytes "foo boo") (-1) ≠ .ok (some [[1, 1], [2, 1]]) := by
  decide

/-- C14, amended: when the engine yields the matches `ms`, at least one, and
reports a matching error when asked for the match after the last of them, each
of `FindAllString`, `FindAllStringIndex`, `FindAllStringSubmatch` and
`FindAllStringSubmatchIndex` stops and returns `nil`; the results found are
dropped. -/
theorem FindAll_error_returns_nil (re : RegexpStd) (s : Str) (ms : List Match) (fuel : Nat)
    (n : Int) (hy : yieldsThenFails re.p s ms = true) (hf : ms.length ≤ fuel) :
    re.FindAllString fuel s n = .ok none ∧
    re.FindAllStringIndex fuel s n = .ok none ∧
    re.FindAllStringSubmatch fuel s n = .ok none ∧
    re.FindAllStringSubmatchIndex fuel s n = .ok none :=
  ⟨allMatches_fails re _ s ms fuel hy hf, allMatches_fails re _ s ms fuel hy hf,
    allMatches_fails re _ s ms fuel hy hf, allMatches_fails re _ s ms fuel hy hf⟩

/-- C14, amended, on the pattern `o` over `foo boo` with an error after the
second match. -/
theorem FindAll_error_returns_nil_witness :
    yieldsThenFails reOFail.p (bytes "foo boo") (fooMatches.take 2) = true ∧
    (fooMatches.take 2).length ≤ 2 ∧
    reOFail.FindAllStringSubmatch 2 (bytes "foo boo") (-1) = .ok none ∧
    reOFail.FindAllStringSubmatchIndex 2 (bytes "foo boo") (-1) = .ok none :=
  ⟨by decide, by decide,
    (FindAll_error_returns_nil reOFail (bytes "foo boo") (fooMatches.take 2) 2 (-1)
      (by decide) (by decide)).2.2.1,
    (FindAll_error_returns_nil reOFail (bytes "foo boo") (fooMatches.take 2) 2 (-1)
      (by decide) (by decide)).2.2.2⟩

/-- C15: each of `ReplaceAllString`, `ReplaceAllLiteralString` and
`ReplaceAllStringFunc` returns `src` itself when the engine's replace primitive
reports an error, and otherwise the text that primitive produced when called
with start position 0 and count -1. -/
theorem Replace_family_result (re : RegexpStd) (src repl : Str) (f : Str → Str) :
    (∀ e, re.p.Replace src repl 0 (-1) = .error e →
      re.ReplaceAllString src repl = src ∧ re.ReplaceAllLiteralString src repl = src) ∧
    (∀ r, re.p.Replace src repl 0 (-1) = .ok r →
      re.ReplaceAllString src repl = r ∧ re.ReplaceAllLiteralString src repl = r) ∧
    (∀ e, re.p.ReplaceFunc src (makeRepFunc f) 0 (-1) = .error e →
      re.ReplaceAllStringFunc src f = src) ∧
    (∀ r, re.p.ReplaceFunc src (makeRepFunc f) 0 (-1) = .ok r →
      re.ReplaceAllStringFunc src f = r) := by
  refine ⟨?_, ?_, ?_, ?_⟩
  · intro e h
    simp [RegexpStd.ReplaceAllString, RegexpStd.ReplaceAllLiteralString, h]
  · intro r h
    simp [RegexpStd.ReplaceAllString, RegexpStd.ReplaceAllLiteralString, h]
  · intro e h
    simp [RegexpStd.ReplaceAllStringFunc, h]
  · intro r h
    simp [RegexpStd.ReplaceAllStringFunc, h]

/-- C15, on the pattern `b` over `aab` with the replacement `x`: on an engine
that times out the three results are `aab`, on the engine that finds the match
they are `aax`. -/
theorem Replace_family_result_witness :
    reTimedOut.p.Replace (bytes "aab") (bytes "x") 0 (-1) = .error "match timeout" ∧
    reTimedOut.ReplaceAllString (bytes "aab") (bytes "x") = bytes "aab" ∧
    reTimedOut.ReplaceAllLiteralString (bytes "aab") (bytes "x") = bytes "aab" ∧
    reTimedOut.ReplaceAllStringFunc (bytes "aab") (fun _ => bytes "x") = bytes "aab" ∧
    reB.p.Replace (bytes "aab") (bytes "x") 0 (-1) = .ok (bytes "aax") ∧
    reB.ReplaceAllString (bytes "aab") (bytes "x") = bytes "aax" ∧
    reB.ReplaceAllLiteralString (bytes "aab") (bytes "x") = bytes "aax" ∧
    reB.ReplaceAllStringFunc (bytes "aab") (fun _ => bytes "x") = bytes "aax" :=
  ⟨rfl,
    ((Replace_family_result reTimedOut (bytes "aab") (bytes "x") (fun _ => bytes "x")).1
      "match timeout" rfl).1,
    ((Replace_family_result reTimedOut (bytes "aab") (bytes "x") (fun _ => bytes "x")).1
      "match timeout" rfl).2,
    (Replace_family_result reTimedOut (bytes "aab") (bytes "x") (fun _ => bytes "x")).2.2.1
      "match timeout" rfl,
    by decide,
    ((Replace_family_result reB (bytes "aab") (bytes "x") (fun _ => bytes "x")).2.1
      (bytes "aax") (by decide)).1,
    ((Replace_family_result reB (bytes "aab") (bytes "x") (fun _ => bytes "x")).2.1
      (bytes "aax") (by decide)).2,
    (Replace_family_result reB (bytes "aab") (bytes "x") (fun _ => bytes "x")).2.2.2
      (bytes "aax") (by decide)⟩

/-- C16: `MatchString` is false when the engine reports a matching error and is
the engine's answer otherwise; it is a total function with a boolean value; and
`Match(b)` is `MatchString` of the string made of the `len(b)` bytes of `b`,
whatever the capacity of `b`: false on an engine error for that string, the
engine's answer for it otherwise. -/
theorem MatchString_error_is_false (re : RegexpStd) (s : Str) (b : Bytes) :
    (∀ e, re.p.MatchString s = .error e → re.MatchString s = false) ∧
    (∀ ok, re.p.MatchString s = .ok ok → re.MatchString s = ok) ∧
    re.Match b = re.MatchString (b.arr.take b.len) ∧
    (∀ e, re.p.MatchString (b.arr.take b.len) = .error e → re.Match b = false) ∧
    (∀ ok, re.p.MatchString (b.arr.take b.len) = .ok ok → re.Match b = ok) := by
  refine ⟨?_, ?_, rfl, ?_, ?_⟩
  · intro e h
    simp [RegexpStd.MatchString, h]
  · intro ok h
    simp [RegexpStd.MatchString, h]
  · intro e h
    simp [RegexpStd.Match, RegexpStd.MatchString, unsafeBytesString, Bytes.toStr, h]
  · intro ok h
    simp [RegexpStd.Match, RegexpStd.MatchString, unsafeBytesString, Bytes.toStr, h]

/-- C16, on the pattern `b`: over `aab` an engine that times out gives false and
the engine that finds the match gives true; over `aaa`, where the engine finds
nothing, the answer is false. For the byte slice of length 3 and capacity 5 over
the array `aabzz`, `Match` answers for `aab`, true, on the engine that finds the
match and false on the engine that times out, where the answer for `aabzz` is
false. -/
theorem MatchString_error_is_false_witness :
    reTimedOut.p.MatchString (bytes "aab") = .error "match timeout" ∧
    reTimedOut.MatchString (bytes "aab") = false ∧
    reB.p.MatchString (bytes "aab") = .ok true ∧
    reB.MatchString (bytes "aab") = true ∧
    reB.p.MatchString (bytes "aaa") = .ok false ∧
    reB.MatchString (bytes "aaa") = false ∧
    (⟨bytes "aabzz", 3⟩ : Bytes).arr.take (⟨bytes "aabzz", 3⟩ : Bytes).len = bytes "aab" ∧
    reB.Match ⟨bytes "aabzz", 3⟩ = reB.MatchString (bytes "aab") ∧
    reB.Match ⟨bytes "aabzz", 3⟩ = true ∧
    reB.MatchString (bytes "aabzz") = false ∧
    reTimedOut.Match ⟨bytes "aabzz", 3⟩ = false :=
  ⟨rfl,
    (MatchString_error_is_false reTimedOut (bytes "aab") ⟨bytes "aabzz", 3⟩).1
      "match timeout" rfl,
    by decide,
    (MatchString_error_is_false reB (bytes "aab") ⟨bytes "aabzz", 3⟩).2.1 true (by decide),
    by decide,
    (MatchString_error_is_false reB (bytes "aaa") ⟨bytes "aabzz", 3⟩).2.1 false (by decide),
    by decide,
    (MatchString_error_is_false reB (bytes "aab") ⟨bytes "aabzz", 3⟩).2.2.1,
    (MatchString_error_is_false reB (bytes "aab") ⟨bytes "aabzz", 3⟩).2.2.2.2 true
      (by decide),
    by decide,
    (MatchString_error_is_false reTimedOut (bytes "aab") ⟨bytes "aabzz", 3⟩).2.2.2.1
      "match timeout" rfl⟩

/-- C17: for `n > 0` the last of `n` substrings is documented to be the unsplit
remainder of `s`. For the pattern `o` over `foo boo` with `n = 2`, `Split`
returns `f` and `oo boo`: the first match is `s[1:2]`, the remainder after it is
`s[2:]`, that is `o boo`, and the last piece returned starts at the length of
that match, 1, and holds the separator. For the pattern `b` over `aab` with
`n = 2` it returns `aa` and `ab`, the remainder after the match `s[2:3]` being
empty; for `a*` over `abaabaccadaaae` with `n = 3` it returns the empty string,
`ab` and `aabaccadaaae`. -/
theorem Split_last_piece_not_remainder :
    reO.FindStringIndex (bytes "foo boo") = some [1, 1] ∧
    reO.Split 20 (bytes "foo boo") 2 = .ok (some [bytes "f", bytes "oo boo"]) ∧
    sliceFrom (bytes "foo boo") 2 = .ok (bytes "o boo") ∧
    reO.Split 20 (bytes "foo boo") 2 ≠ .ok (some [bytes "f", bytes "o boo"]) ∧
    reB.Split 20 (bytes "aab") 2 = .ok (some [bytes "aa", bytes "ab"]) ∧
    sliceFrom (bytes "aab") 3 = .ok (bytes "") ∧
    reAStar.Split 20 splitText 3 = .ok (some [bytes "", bytes "ab", bytes "aabaccadaaae"]) := by
  decide

/-- C18: `Split(s, 0)` returns `nil` for every text, whatever the engine would
answer and on any iteration budget, zero included: no answer of the engine
enters the result. -/
theorem Split_zero_is_nil (re : RegexpStd) (fuel : Nat) (s : Str) :
    re.Split fuel s 0 = .ok none ∧ re.Split 0 s 0 = .ok none := by
  simp [RegexpStd.Split]

/-- C19: the second result of `LiteralPrefix` is the flag `CaseInsensitive` of
the recorded prefix, for every engine. For the pattern `abc` with the recorded
prefix `abc`, not case-insensitive, the prefix is the entire expression and the
result is false; for the pattern `(?i)ab.*` with the recorded prefix `ab`,
case-insensitive, the prefix is not the entire expression and the result is
true. Without a recorded prefix the result is the empty string and false. -/
theorem LiteralPrefix_returns_case_flag :
    (∀ re : RegexpStd, re.LiteralPrefix.2 =
      (re.p.FcPrefix.map (fun p => p.CaseInsensitive)).getD false) ∧
    reLiteral.p.pattern = bytes "abc" ∧ reLiteral.LiteralPrefix = (bytes "abc", false) ∧
    reFolded.p.pattern = bytes "(?i)ab.*" ∧ reFolded.LiteralPrefix = (bytes "ab", true) ∧
    reB.p.FcPrefix = none ∧ reB.LiteralPrefix = ([], false) := by
  refine ⟨?_, by decide, by decide, by decide, by decide, by decide, by decide⟩
  intro re
  unfold RegexpStd.LiteralPrefix
  cases re.p.FcPrefix <;> rfl

/-- C20: for a string without any special byte the first loop of `QuoteMeta`
runs to the end of the string and `QuoteMeta` returns the string itself. -/
theorem QuoteMeta_identity_without_special (s : Str) (h : ∀ c ∈ s, special c = false) :
    scanSpecial s 0 = s.length ∧ QuoteMeta s = .ok s := by
  have hscan : scanSpecial s 0 = s.length := by
    obtain ⟨k, hk, hle, _, hnext⟩ := scanSpecial_spec s 0
    have hk' : scanSpecial s 0 = k := by simpa using hk
    by_cases hlt : k < s.length
    · obtain ⟨c, hc, hsp⟩ := hnext hlt
      have hmem : c ∈ s := List.getElem?_mem hc
      rw [h c hmem] at hsp
      exact absurd hsp (by decide)
    · omega
  refine ⟨hscan, ?_⟩
  unfold QuoteMeta
  simp [hscan]

/-- C20, on the string `abc` and on the empty string. -/
theorem QuoteMeta_identity_without_special_witness :
    (∀ c ∈ bytes "abc", special c = false) ∧ QuoteMeta (bytes "abc") = .ok (bytes "abc") ∧
    QuoteMeta [] = .ok [] :=
  ⟨by decide, (QuoteMeta_identity_without_special (bytes "abc") (by decide)).2,
    (QuoteMeta_identity_without_special [] (by simp)).2⟩

/-- C21: for every string `s`, `QuoteMeta` returns a string whose length is
`len(s)` plus the number of special bytes of `s`; that length is at least
`len(s)`, at most `2*len(s)`, and at most the `2*len(s)-i` bytes of the output
buffer, `i` being the index at which the first loop stops. -/
theorem QuoteMeta_length_bounds (s : Str) :
    ∃ q, QuoteMeta s = .ok q ∧ q.length = s.length + s.countP special ∧
      s.length ≤ q.length ∧ q.length ≤ 2 * s.length ∧
      q.length ≤ 2 * s.length - scanSpecial s 0 := by
  have hlen := length_flatMap_escapeByte s
  have hcnt := countP_special_le s
  have hscan : scanSpecial s 0 ≤ s.length := by
    obtain ⟨k, hk, hle, _, _⟩ := scanSpecial_spec s 0
    have hk' : scanSpecial s 0 = k := by simpa using hk
    omega
  exact ⟨s.flatMap escapeByte, QuoteMeta_eq s, hlen, by omega, by omega, by omega⟩

/-- C22: for every receiver and every argument, each of `Longest`,
`MatchReader`, `FindReaderIndex`, `FindReaderSubmatchIndex`, `ReplaceAllLiteral`
and `ReplaceAllFunc` panics, and so returns no value. -/
theorem unsupported_entry_points_panic (re : RegexpStd) (r : RuneReader) (src repl : Bytes)
    (f : Bytes → Bytes) :
    (re.Longest = .error .panic ∧ ∀ v, re.Longest ≠ .ok v) ∧
    (re.MatchReader r = .error .panic ∧ ∀ v, re.MatchReader r ≠ .ok v) ∧
    (re.FindReaderIndex r = .error .panic ∧ ∀ v, re.FindReaderIndex r ≠ .ok v) ∧
    (re.FindReaderSubmatchIndex r = .error .panic ∧
      ∀ v, re.FindReaderSubmatchIndex r ≠ .ok v) ∧
    (re.ReplaceAllLiteral src repl = .error .panic ∧
      ∀ v, re.ReplaceAllLiteral src repl ≠ .ok v) ∧
    (re.ReplaceAllFunc src f = .error .panic ∧ ∀ v, re.ReplaceAllFunc src f ≠ .ok v) := by
  refine ⟨⟨rfl, ?_⟩, ⟨rfl, ?_⟩, ⟨rfl, ?_⟩, ⟨rfl, ?_⟩, ⟨rfl, ?_⟩, ⟨rfl, ?_⟩⟩ <;>
    intro v h <;> cases h

/-- C23: when the engine yields on `s` a finite sequence of matches that
satisfies the match-sequence invariants, then for every `n`, on any iteration
budget of at least the number of matches, every slice expression `s[beg:end]`
and `s[beg:]` that `Split` evaluates has `0 <= beg <= end <= len(s)`, and
`Split` returns normally. -/
theorem Split_slices_in_range (re : RegexpStd) (s : Str) (ms : List Match) (fuel : Nat)
    (n : Int) (hy : yields re.p s ms = true) (ho : spansOrdered s.length 0 ms = true)
    (hf : ms.length ≤ fuel) :
    (∀ p ∈ re.SplitSlices fuel s n, inRange s.length p) ∧ ∃ r, re.Split fuel s n = .ok r := by
  constructor
  · intro p hp
    unfold RegexpStd.SplitSlices at hp
    by_cases hn : n = 0
    · simp [hn] at hp
    · rw [if_neg hn] at hp
      by_cases hempty : re.p.pattern.length > 0 ∧ s.length = 0
      · simp [hempty] at hp
      · rw [if_neg hempty] at hp
        have hall : re.FindAllStringIndex fuel s n =
            .ok (if ms = [] then none else some (ms.map (fun m => [m.Index, m.Length]))) :=
          allMatches_yields re (fun m => [m.Index, m.Length]) s ms fuel hy hf
        have hget :
            (if ms = [] then none else some (ms.map (fun m => [m.Index, m.Length]))).getD []
              = ms.map (fun m : Match => [m.Index, m.Length]) := by
          cases ms <;> simp
        obtain ⟨out, hout, hb0, hb1⟩ :=
          splitLoop_ok s n ms [] 0 0 0 ho (le_refl _) (le_refl _) (by omega)
        obtain ⟨strings, beg, end_⟩ := out
        simp only [hall, hget, hout, List.mem_append] at hp
        rcases hp with hp | hp
        · exact splitLoopSlices_inRange s n ms [] 0 0 ho (le_refl _) (le_refl _) p hp
        · by_cases he : end_ ≠ (s.length : Int)
          · simp only [if_pos he, List.mem_singleton] at hp
            subst hp
            exact ⟨hb0, hb1, le_refl _⟩
          · simp [if_neg he] at hp
  · by_cases hn : n = 0
    · exact ⟨none, by simp [RegexpStd.Split, hn]⟩
    · obtain ⟨r, hr⟩ := Split_returns re s ms fuel n hn hy ho hf
      exact ⟨some r, hr⟩

/-- C23, on the pattern `a*` over `abaabaccadaaae` with `n = 5`: the slice
expressions evaluated are `s[0:0]`, `s[0:2]`, `s[0:5]`, `s[0:8]` and `s[1:]`. -/
theorem Split_slices_in_range_witness :
    yields reAStar.p splitText aStarMatches = true ∧
    spansOrdered splitText.length 0 aStarMatches = true ∧ aStarMatches.length ≤ 12 ∧
    reAStar.SplitSlices 12 splitText 5 = [(0, 0), (0, 2), (0, 5), (0, 8), (1, 14)] ∧
    (∀ p ∈ reAStar.SplitSlices 12 splitText 5, inRange splitText.length p) ∧
    ∃ r, reAStar.Split 12 splitText 5 = .ok r :=
  ⟨by decide, by decide, by decide, by decide,
    (Split_slices_in_range reAStar splitText aStarMatches 12 5 (by decide) (by decide)
      (by decide)).1,
    (Split_slices_in_range reAStar splitText aStarMatches 12 5 (by decide) (by decide)
      (by decide)).2⟩

end Regexp2
